import Mathlib

set_option maxRecDepth 8000

/- Shallow embedding of the outline-generation core of images2pdf.py
   (static method Images2Pdf.generate_outlines, lines 327-374).

   Python strings are modelled as lists of characters (a Python str is a
   sequence of code points, which is what the re module scans).  Python's
   str.strip()/str.split() strip Unicode whitespace; we model whitespace
   with Char.isWhitespace, which covers the whitespace that occurs in the
   filenames this program processes.

   The pikepdf.OutlineItem objects and the aliased mutable children lists
   of the Python code are rendered as a pure zipper: level_item_list holds,
   for each open depth, the children sequence built so far; closing (or
   deleting) a frame attaches it to the last item of the frame below, which
   is exactly the connection that the aliasing of old_item.children makes
   eagerly in Python (a frame is pushed as the children list of the item
   most recently appended to the frame below it, and frames only ever
   receive appends while they are the top of the stack). -/

/- The fixed ordered 16-symbol marker alphabet of generate_outlines. -/
def markerList : List Char :=
  ['⓿', '❶', '❷', '❸', '❹', '❺', '❻', '❼', '❽', '❾', '❿', '⓫', '⓬', '⓭', '⓮', '⓯']

def isMarker (c : Char) : Bool := markerList.contains c

def notMarker (c : Char) : Bool := !(isMarker c)

/- The regex [markers]?[^markers]+ applied with finditer (non-overlapping,
   left to right).  At a position holding a non-marker, the match is the
   maximal run of non-markers; at a position holding a marker followed by a
   non-marker, the match is the marker plus the maximal run of non-markers;
   a marker followed by another marker or by the end of the string matches
   nothing and the scan moves one character forward.  The fuel argument
   (initialised with the length of the string) only makes the recursion
   structural; it never runs out, since every recursive call consumes at
   least one character. -/
def scanRunsAux : Nat → List Char → List (List Char)
  | 0, _ => []
  | _ + 1, [] => []
  | fuel + 1, c :: cs =>
    if isMarker c then
      match cs with
      | [] => []
      | d :: ds =>
        if isMarker d then scanRunsAux fuel (d :: ds)
        else (c :: (d :: ds).takeWhile notMarker) :: scanRunsAux fuel ((d :: ds).dropWhile notMarker)
    else
      (c :: cs.takeWhile notMarker) :: scanRunsAux fuel (cs.dropWhile notMarker)

def scanRuns (s : List Char) : List (List Char) := scanRunsAux s.length s

/- One emitted token: a resolved marker level and the remaining text. -/
structure LabelToken where
  level : Nat
  text  : List Char
deriving DecidableEq

/- The loop "for level_tmp, level_str in enumerate([...]): if
   bookmark_name.startswith(level_str): strip it, level = level_tmp, break"
   from lines 337-342: find the first marker the run starts with. -/
def splitMarker (run : List Char) : Nat × List Char :=
  match markerList.findIdx? (fun m => run.head? == some m) with
  | some i => (i, run.tail)
  | none => (0, run)

/- Python str.strip(): drop whitespace from both ends. -/
def trimChars (s : List Char) : List Char :=
  ((s.dropWhile Char.isWhitespace).reverse.dropWhile Char.isWhitespace).reverse

/- Lines 336-346: marker detection, truncation at the first '※'
   (bookmark_name.split('※', 1)[0]), strip, and the emptiness guard
   (0 < len(bookmark_name)). -/
def processRun (run : List Char) : Option LabelToken :=
  let lv := splitMarker run
  let name1 := lv.2.takeWhile (fun c => c != '※')
  let name2 := trimChars name1
  if name2.length = 0 then none else some ⟨lv.1, name2⟩

/- The full tokenizer for one label string: finditer then per-run
   processing, dropped runs contributing nothing. -/
def tokenize (s : List Char) : List LabelToken :=
  (scanRuns s).filterMap processRun

/- Python str.split(maxsplit=1) (line 332): skip leading whitespace, the
   first whitespace-free field, then the remainder after the following
   whitespace run; an empty remainder is not included. -/
def splitMax1 (s : List Char) : List (List Char) :=
  let s1 := s.dropWhile Char.isWhitespace
  if s1.length = 0 then []
  else
    let field := s1.takeWhile (fun c => !c.isWhitespace)
    let rest := (s1.dropWhile (fun c => !c.isWhitespace)).dropWhile Char.isWhitespace
    if rest.length = 0 then [field] else [field, rest]

/- One entry of the flat bookmarks list built by lines 330-346. -/
structure Bookmark where
  level : Nat
  name : List Char
  page_number : Nat
deriving DecidableEq

/- The per-page part of the loop at lines 331-346: split the stem, and if a
   nonempty remainder exists, tokenize it, tagging tokens with the page
   number. -/
def pageBookmarks (page_number : Nat) (stem : List Char) : List Bookmark :=
  match splitMax1 stem with
  | [_, label] =>
    if 0 < label.length then
      (tokenize label).map (fun t => { level := t.level, name := t.text, page_number := page_number })
    else []
  | _ => []

/- Lines 330-346: the flat bookmarks list over all pages, page index
   ascending (enumerate(page_path_list)). -/
def collectBookmarks (stems : List (List Char)) : List Bookmark :=
  (stems.enum.map (fun p => pageBookmarks p.1 p.2)).flatten

/- A pikepdf.OutlineItem: title, target page, children. -/
inductive OutlineItem where
  | node (name : List Char) (page_number : Nat) (children : List OutlineItem)

def OutlineItem.name : OutlineItem → List Char
  | node n _ _ => n

def OutlineItem.page : OutlineItem → Nat
  | node _ p _ => p

def OutlineItem.children : OutlineItem → List OutlineItem
  | node _ _ cs => cs

def setChildren : OutlineItem → List OutlineItem → OutlineItem
  | OutlineItem.node n p _, cs => OutlineItem.node n p cs

/- Attach a finished children sequence to the last item of a frame (the
   item whose children list the frame was pushed as). -/
def setLastChildren : List OutlineItem → List OutlineItem → List OutlineItem
  | [], _ => []
  | [x], cs => [setChildren x cs]
  | x :: y :: r, cs => x :: setLastChildren (y :: r) cs

def popTop : List (List OutlineItem) → List (List OutlineItem)
  | [] => []
  | [_] => []
  | top :: parent :: rest => setLastChildren parent top :: rest

/- Remove the last (deepest) frame of the stack, attaching its contents to
   the last item of the frame below it.  The stack is kept root first, as
   level_item_list is in Python, so we pop through the reverse. -/
def popOne (stack : List (List OutlineItem)) : List (List OutlineItem) :=
  (popTop stack.reverse).reverse

/- del level_item_list[-(k):] (line 366): remove the deepest k frames. -/
def delFrames : Nat → List (List OutlineItem) → List (List OutlineItem)
  | 0, s => s
  | k + 1, s => delFrames k (popOne s)

/- level_item_list[i].append(item) (line 370), with Python's literal
   indexing by the resolved level.  (Out-of-range indexing never happens on
   reachable states, see the stack-length invariant below; List.set makes
   the function total.) -/
def appendAt (s : List (List OutlineItem)) (i : Nat) (item : OutlineItem) : List (List OutlineItem) :=
  s.set i (s.getD i [] ++ [item])

/- The loop state of lines 351-354.  Python initialises old_level = None
   and never reads it before the first iteration overwrites it (the first
   iteration takes the old_raw_level is None branch); we initialise it
   with 0. -/
structure BuildState where
  level_item_list : List (List OutlineItem)
  old_raw_level : Option Nat
  old_level : Nat

def startState : BuildState := ⟨[[]], none, 0⟩

/- One iteration of the loop at lines 355-373.  In the ascend branch the
   Python expression max(0, level - (old_raw_level - raw_level)) reads the
   variable level before reassigning it; at that point level still holds
   the value of the previous iteration, which is exactly old_level (both
   are only assigned together at lines 371-372), so the state need not
   carry level separately. -/
def buildStep (st : BuildState) (bookmark : Bookmark) : BuildState :=
  let item := OutlineItem.node bookmark.name bookmark.page_number []
  let raw_level := bookmark.level
  match st.old_raw_level with
  | none =>
    { level_item_list := appendAt st.level_item_list 0 item
      old_raw_level := some raw_level
      old_level := 0 }
  | some orl =>
    if orl < raw_level then
      let level := st.old_level + 1
      { level_item_list := appendAt (st.level_item_list ++ [[]]) level item
        old_raw_level := some raw_level
        old_level := level }
    else if raw_level < orl then
      let level : Nat := (max 0 ((st.old_level : Int) - ((orl : Int) - (raw_level : Int)))).toNat
      let popped := if level < st.old_level
                    then delFrames (st.old_level - level) st.level_item_list
                    else st.level_item_list
      { level_item_list := appendAt popped level item
        old_raw_level := some raw_level
        old_level := level }
    else
      { level_item_list := appendAt st.level_item_list st.old_level item
        old_raw_level := some raw_level
        old_level := st.old_level }

/- Close all still-open frames, deepest first; the result is the root
   sequence (the list Python calls outlines, whose aliased contents already
   include every open frame). -/
def collapseRev : List (List OutlineItem) → List OutlineItem
  | [] => []
  | top :: rest => rest.foldl (fun acc parent => setLastChildren parent acc) top

def finalForest (s : List (List OutlineItem)) : List OutlineItem := collapseRev s.reverse

/- Images2Pdf.generate_outlines, taking the stems of the sorted page path
   list (page_path.stem for each page, in order). -/
def generate_outlines (stems : List (List Char)) : List OutlineItem :=
  let bookmarks := collectBookmarks stems
  if bookmarks.length = 0 then []
  else finalForest ((bookmarks.foldl buildStep startState).level_item_list)

/- State after folding the builder over a bookmark list. -/
def stateAfter (bs : List Bookmark) : BuildState := bs.foldl buildStep startState

/- Titles and target pages of a forest in depth-first preorder. -/
mutual
def flattenItem : OutlineItem → List (List Char × Nat)
  | OutlineItem.node n p cs => (n, p) :: flattenForest cs
def flattenForest : List OutlineItem → List (List Char × Nat)
  | [] => []
  | c :: cs => flattenItem c ++ flattenForest cs
end

/- Basic facts about the stack operations. -/

lemma appendAt_length (s : List (List OutlineItem)) (i : Nat) (x : OutlineItem) :
    (appendAt s i x).length = s.length := by
  simp [appendAt]

lemma popTop_length (s : List (List OutlineItem)) : (popTop s).length = s.length - 1 := by
  match s with
  | [] => rfl
  | [_] => rfl
  | top :: parent :: rest => simp [popTop]

lemma popOne_length (s : List (List OutlineItem)) : (popOne s).length = s.length - 1 := by
  simp [popOne, popTop_length]

lemma delFrames_length (k : Nat) : ∀ s : List (List OutlineItem),
    (delFrames k s).length = s.length - k := by
  induction k with
  | zero => intro s; rfl
  | succ k ih =>
    intro s
    rw [delFrames, ih, popOne_length]
    omega

lemma setLastChildren_cons₂ (a : OutlineItem) (l : List OutlineItem) (hl : l ≠ [])
    (cs : List OutlineItem) : setLastChildren (a :: l) cs = a :: setLastChildren l cs := by
  cases l with
  | nil => exact absurd rfl hl
  | cons b r => rfl

lemma setLastChildren_concat (Q : List OutlineItem) (y : OutlineItem) (cs : List OutlineItem) :
    setLastChildren (Q ++ [y]) cs = Q ++ [setChildren y cs] := by
  induction Q with
  | nil => rfl
  | cons a Q ih =>
    rw [List.cons_append, setLastChildren_cons₂ a (Q ++ [y]) (by simp) cs, ih]
    rfl

lemma setLastChildren_ne_nil (l : List OutlineItem) (hl : l ≠ []) (cs : List OutlineItem) :
    setLastChildren l cs ≠ [] := by
  rcases List.eq_nil_or_concat l with rfl | ⟨Q, y, rfl⟩
  · exact absurd rfl hl
  · rw [List.concat_eq_append, setLastChildren_concat]; simp

/- Preorder flattening facts. -/

lemma flattenForest_nil : flattenForest [] = [] := by rw [flattenForest]

lemma flattenForest_cons (c : OutlineItem) (cs : List OutlineItem) :
    flattenForest (c :: cs) = flattenItem c ++ flattenForest cs := by
  rw [flattenForest]

lemma flattenItem_node (n : List Char) (p : Nat) (cs : List OutlineItem) :
    flattenItem (OutlineItem.node n p cs) = (n, p) :: flattenForest cs := by
  rw [flattenItem]

lemma flattenForest_append (a b : List OutlineItem) :
    flattenForest (a ++ b) = flattenForest a ++ flattenForest b := by
  induction a with
  | nil => rw [flattenForest_nil]; rfl
  | cons c cs ih => rw [List.cons_append, flattenForest_cons, flattenForest_cons, ih, List.append_assoc]

/- Collapsing facts. -/

lemma collapseRev_singleton (T : List OutlineItem) : collapseRev [T] = T := rfl

lemma collapseRev_cons_cons (T parent : List OutlineItem) (rest : List (List OutlineItem)) :
    collapseRev (T :: parent :: rest) = collapseRev (setLastChildren parent T :: rest) := rfl

/- Appending one element at the end of the top frame appends its entry at
   the end of the final preorder, whatever frames lie below. -/
lemma flatten_collapse_snoc (x : List Char × Nat) :
    ∀ (rest : List (List OutlineItem)) (T₁ T₂ : List OutlineItem),
      (∀ f ∈ rest, f ≠ []) → flattenForest T₁ = flattenForest T₂ ++ [x] →
      flattenForest (collapseRev (T₁ :: rest)) = flattenForest (collapseRev (T₂ :: rest)) ++ [x] := by
  intro rest
  induction rest with
  | nil => intro T₁ T₂ _ h; rw [collapseRev_singleton, collapseRev_singleton]; exact h
  | cons parent rest ih =>
    intro T₁ T₂ hne h
    rw [collapseRev_cons_cons, collapseRev_cons_cons]
    have hparent : parent ≠ [] := hne parent (by simp)
    rcases List.eq_nil_or_concat parent with rfl | ⟨Q, y, rfl⟩
    · exact absurd rfl hparent
    · simp only [List.concat_eq_append] at hne ⊢
      apply ih _ _ (fun f hf => hne f (by simp [hf]))
      rw [setLastChildren_concat, setLastChildren_concat]
      cases y with
      | node a b c =>
        rw [flattenForest_append, flattenForest_append]
        simp only [setChildren, flattenForest_cons, flattenForest_nil, flattenItem_node,
          List.append_nil, h]
        simp

lemma flatten_final_snoc_top (front : List (List OutlineItem)) (top : List OutlineItem)
    (n : List Char) (p : Nat) (hf : ∀ f ∈ front, f ≠ []) :
    flattenForest (finalForest (front ++ [top ++ [OutlineItem.node n p []]])) =
      flattenForest (finalForest (front ++ [top])) ++ [(n, p)] := by
  unfold finalForest
  rw [List.reverse_append, List.reverse_append]
  simp only [List.reverse_singleton, List.singleton_append]
  apply flatten_collapse_snoc _ _ _ _ (fun f hf' => hf f (by simpa using hf'))
  rw [flattenForest_append, flattenForest_cons, flattenForest_nil, flattenItem_node,
    flattenForest_nil]
  simp

lemma flatten_final_push (front : List (List OutlineItem)) (G : List OutlineItem)
    (n : List Char) (p : Nat) (nb : List Char) (pb : Nat) (hf : ∀ f ∈ front, f ≠ []) :
    flattenForest (finalForest ((front ++ [G ++ [OutlineItem.node n p []]]) ++ [[OutlineItem.node nb pb []]])) =
      flattenForest (finalForest (front ++ [G ++ [OutlineItem.node n p []]])) ++ [(nb, pb)] := by
  unfold finalForest
  rw [List.reverse_append, List.reverse_append]
  simp only [List.reverse_singleton, List.singleton_append]
  rw [collapseRev_cons_cons, setLastChildren_concat]
  apply flatten_collapse_snoc _ _ _ _ (fun f hf' => hf f (by simpa using hf'))
  rw [flattenForest_append, flattenForest_append]
  simp only [setChildren, flattenForest_cons, flattenForest_nil, flattenItem_node,
    List.append_nil]
  simp

lemma popOne_finalForest (s : List (List OutlineItem)) (h : 2 ≤ s.length) :
    finalForest (popOne s) = finalForest s := by
  have h2 : 2 ≤ s.reverse.length := by simpa using h
  match hs : s.reverse with
  | [] => rw [hs] at h2; simp at h2
  | [_] => rw [hs] at h2; simp at h2
  | top :: parent :: rest =>
    unfold finalForest popOne
    rw [hs]
    rw [popTop, List.reverse_reverse, ← collapseRev_cons_cons]

lemma popOne_frames_ne_nil (s : List (List OutlineItem)) (h : ∀ f ∈ s, f ≠ []) :
    ∀ f ∈ popOne s, f ≠ [] := by
  intro f hf
  unfold popOne at hf
  rw [List.mem_reverse] at hf
  match hs : s.reverse with
  | [] => rw [hs, popTop] at hf; simp at hf
  | [_] => rw [hs, popTop] at hf; simp at hf
  | top :: parent :: rest =>
    rw [hs, popTop] at hf
    have hmem : ∀ g ∈ s.reverse, g ≠ [] := fun g hg => h g (List.mem_reverse.mp hg)
    rcases List.mem_cons.mp hf with rfl | hf'
    · exact setLastChildren_ne_nil parent (hmem parent (by rw [hs]; simp)) top
    · exact hmem f (by rw [hs]; simp [hf'])

lemma delFrames_finalForest (k : Nat) : ∀ s : List (List OutlineItem), k < s.length →
    finalForest (delFrames k s) = finalForest s := by
  induction k with
  | zero => intro s _; rfl
  | succ k ih =>
    intro s hk
    rw [delFrames, ih _ (by rw [popOne_length]; omega), popOne_finalForest _ (by omega)]

lemma delFrames_frames_ne_nil (k : Nat) : ∀ s : List (List OutlineItem),
    (∀ f ∈ s, f ≠ []) → ∀ f ∈ delFrames k s, f ≠ [] := by
  induction k with
  | zero => intro s h; exact h
  | succ k ih => intro s h; exact ih _ (popOne_frames_ne_nil s h)

lemma appendAt_concat (front : List (List OutlineItem)) (top : List OutlineItem) (x : OutlineItem) :
    appendAt (front ++ [top]) front.length x = front ++ [top ++ [x]] := by
  induction front with
  | nil => simp [appendAt]
  | cons f fs ih =>
    simp only [appendAt, List.cons_append, List.length_cons, List.getD_cons_succ,
      List.set_cons_succ] at *
    rw [ih]

lemma getD_concat_length {α : Type} (front : List α) (top d : α) :
    (front ++ [top]).getD front.length d = top := by
  induction front with
  | nil => rfl
  | cons f fs ih => simp only [List.cons_append, List.length_cons, List.getD_cons_succ]; exact ih

/- In every branch the loop records the token's raw level. -/
lemma buildStep_old_raw (st : BuildState) (b : Bookmark) :
    (buildStep st b).old_raw_level = some b.level := by
  rcases st with ⟨s, orl?, old⟩
  cases orl? with
  | none => rfl
  | some orl =>
    simp only [buildStep]
    split
    · rfl
    · split <;> rfl

lemma stateAfter_append (bs : List Bookmark) (b : Bookmark) :
    stateAfter (bs ++ [b]) = buildStep (stateAfter bs) b := by
  unfold stateAfter
  rw [List.foldl_append]
  rfl

lemma stateAfter_old_raw (bs : List Bookmark) (b : Bookmark) :
    (stateAfter (bs ++ [b])).old_raw_level = some b.level := by
  rw [stateAfter_append]; exact buildStep_old_raw _ _

/- The reachable-state invariant of the tree-building loop: the stack holds
   exactly old_level + 1 frames; after the first token every frame is
   nonempty, the deepest frame ends with the item appended last (whose
   children list is still empty, so it is the frame a descent would push),
   and the preorder flattening of the collapsed stack lists exactly the
   processed bookmarks in encounter order. -/
def goodState (st : BuildState) (processed : List Bookmark) : Prop :=
  st.level_item_list.length = st.old_level + 1 ∧
  ((st.old_raw_level = none ∧ st.level_item_list = [[]] ∧ st.old_level = 0 ∧ processed = []) ∨
   (st.old_raw_level ≠ none ∧
    (∀ f ∈ st.level_item_list, f ≠ []) ∧
    (∃ front G n p, st.level_item_list = front ++ [G ++ [OutlineItem.node n p []]]) ∧
    flattenForest (finalForest st.level_item_list) =
      processed.map (fun bm => (bm.name, bm.page_number))))

/- Appending a fresh leaf at the top frame: the stack keeps its length, all
   frames stay nonempty, the deepest frame now ends with the fresh leaf,
   and the leaf's entry lands at the end of the preorder. -/
lemma append_at_top_facts (s : List (List OutlineItem)) (L : Nat) (hL : s.length = L + 1)
    (hne : ∀ f ∈ s, f ≠ []) (n : List Char) (p : Nat) :
    (appendAt s L (OutlineItem.node n p [])).length = L + 1 ∧
    (∀ f ∈ appendAt s L (OutlineItem.node n p []), f ≠ []) ∧
    (∃ front G nn pp, appendAt s L (OutlineItem.node n p []) =
        front ++ [G ++ [OutlineItem.node nn pp []]]) ∧
    flattenForest (finalForest (appendAt s L (OutlineItem.node n p []))) =
      flattenForest (finalForest s) ++ [(n, p)] := by
  rcases List.eq_nil_or_concat s with rfl | ⟨front, top, rfl⟩
  · simp at hL
  · rw [List.concat_eq_append] at *
    have hfl : front.length = L := by
      rw [List.length_append, List.length_singleton] at hL; omega
    subst hfl
    rw [appendAt_concat]
    have hfront : ∀ f ∈ front, f ≠ [] := fun f hf => hne f (by simp [hf])
    refine ⟨by simp, ?_, ⟨front, top, n, p, rfl⟩, ?_⟩
    · intro f hf
      rcases List.mem_append.mp hf with hf' | hf'
      · exact hfront f hf'
      · rw [List.mem_singleton] at hf'; subst hf'; simp
    · exact flatten_final_snoc_top front top n p hfront

/- One loop iteration preserves the invariant, extending the recorded
   preorder by the new token. -/
lemma stepGood (st : BuildState) (processed : List Bookmark) (b : Bookmark)
    (h : goodState st processed) : goodState (buildStep st b) (processed ++ [b]) := by
  obtain ⟨hlen, hrest⟩ := h
  rcases st with ⟨s, orl?, old⟩
  simp only at hlen
  cases orl? with
  | none =>
    rcases hrest with ⟨-, hs, hold, hproc⟩ | ⟨hne, -⟩
    · simp only at hs hold hproc
      subst hs; subst hold; subst hproc
      refine ⟨by simp [buildStep, appendAt], Or.inr ⟨by simp [buildStep], ?_, ?_, ?_⟩⟩
      · intro f hf
        simp only [buildStep, appendAt] at hf
        simp at hf
        subst hf; simp
      · exact ⟨[], [], b.name, b.page_number, by simp [buildStep, appendAt]⟩
      · simp [buildStep, appendAt, finalForest, collapseRev, flattenForest_cons,
          flattenForest_nil, flattenItem_node]
    · exact absurd rfl hne
  | some orl =>
    rcases hrest with ⟨hnone, -⟩ | ⟨-, hframes, hshape, hflat⟩
    · exact absurd hnone (by simp)
    · simp only at hframes hshape hflat
      simp only [buildStep]
      by_cases h1 : orl < b.level
      · -- descend: resolved level old + 1, push a fresh frame
        rw [if_pos h1]
        obtain ⟨front, G, n, p, hs⟩ := hshape
        have happ : appendAt (s ++ [[]]) (old + 1) (OutlineItem.node b.name b.page_number []) =
            s ++ [[OutlineItem.node b.name b.page_number []]] := by
          have h0 := appendAt_concat s [] (OutlineItem.node b.name b.page_number [])
          rw [hlen] at h0
          simpa using h0
        rw [happ]
        refine ⟨by simp [hlen], Or.inr ⟨by simp, ?_, ?_, ?_⟩⟩
        · intro f hf
          rcases List.mem_append.mp hf with hf' | hf'
          · exact hframes f hf'
          · rw [List.mem_singleton] at hf'; subst hf'; simp
        · exact ⟨s, [], b.name, b.page_number, by simp⟩
        · rw [hs]
          have hpush := flatten_final_push front G n p b.name b.page_number
            (fun f hf => hframes f (by rw [hs]; exact List.mem_append.mpr (Or.inl hf)))
          rw [hpush, ← hs, hflat]
          simp
      · rw [if_neg h1]
        by_cases h2 : b.level < orl
        · -- ascend: resolved level max(0, old - (orl - raw)), delete frames
          rw [if_pos h2]
          set L : Nat := (max 0 ((old : Int) - ((orl : Int) - (b.level : Int)))).toNat with hLdef
          have hLle : L ≤ old := by omega
          by_cases h3 : L < old
          · rw [if_pos h3]
            have hdlen : (delFrames (old - L) s).length = L + 1 := by
              rw [delFrames_length, hlen]; omega
            have hdframes : ∀ f ∈ delFrames (old - L) s, f ≠ [] :=
              delFrames_frames_ne_nil _ _ hframes
            have hdflat : finalForest (delFrames (old - L) s) = finalForest s :=
              delFrames_finalForest _ _ (by omega)
            obtain ⟨flen, fne, fshape, fflat⟩ :=
              append_at_top_facts (delFrames (old - L) s) L hdlen hdframes b.name b.page_number
            exact ⟨flen, Or.inr ⟨by simp, fne, fshape, by rw [fflat, hdflat, hflat]; simp⟩⟩
          · rw [if_neg h3]
            have hLeq : L = old := by omega
            obtain ⟨flen, fne, fshape, fflat⟩ :=
              append_at_top_facts s old hlen hframes b.name b.page_number
            rw [hLeq]
            exact ⟨flen, Or.inr ⟨by simp, fne, fshape, by rw [fflat, hflat]; simp⟩⟩
        · -- equal raw levels: sibling at the same resolved level
          rw [if_neg h2]
          obtain ⟨flen, fne, fshape, fflat⟩ :=
            append_at_top_facts s old hlen hframes b.name b.page_number
          exact ⟨flen, Or.inr ⟨by simp, fne, fshape, by rw [fflat, hflat]; simp⟩⟩

lemma foldGood : ∀ (bs : List Bookmark) (st : BuildState) (processed : List Bookmark),
    goodState st processed → goodState (bs.foldl buildStep st) (processed ++ bs) := by
  intro bs
  induction bs with
  | nil => intro st processed h; simpa using h
  | cons b bs ih =>
    intro st processed h
    rw [List.foldl_cons]
    have := ih (buildStep st b) (processed ++ [b]) (stepGood st processed b h)
    simpa using this

lemma startState_good : goodState startState [] := by
  exact ⟨rfl, Or.inl ⟨rfl, rfl, rfl, rfl⟩⟩

/- The invariant holds after processing any bookmark sequence. -/
lemma stateAfter_good (bs : List Bookmark) : goodState (stateAfter bs) bs := by
  have := foldGood bs startState [] startState_good
  simpa [stateAfter] using this

/-- C3: for every input token sequence, after processing each token the frame
stack holds exactly (resolved depth + 1) entries; hence the resolved depth
never exceeds the number of open frames, the frame indexed at the resolved
depth exists, and the pop of the ascend rule can never remove the root frame. -/
theorem C3_stack_safety (bs : List Bookmark) :
    (stateAfter bs).level_item_list.length = (stateAfter bs).old_level + 1 ∧
    (stateAfter bs).old_level < (stateAfter bs).level_item_list.length ∧
    0 < (stateAfter bs).level_item_list.length := by
  obtain ⟨hlen, -⟩ := stateAfter_good bs
  exact ⟨hlen, by omega, by omega⟩

/-- C1: whenever a token's raw level is strictly greater than the previous
token's raw level, its resolved depth is the previous resolved depth plus
exactly one (whatever the size of the raw-level jump), one new frame is
pushed, and the insertion frame at the new depth is the previous item's
(empty) children sequence, now holding exactly the new node. -/
theorem C1_descend_rule (pre : List Bookmark) (prev b : Bookmark)
    (h : prev.level < b.level) :
    (stateAfter (pre ++ [prev, b])).old_level = (stateAfter (pre ++ [prev])).old_level + 1 ∧
    (stateAfter (pre ++ [prev, b])).level_item_list.length =
      (stateAfter (pre ++ [prev])).level_item_list.length + 1 ∧
    (stateAfter (pre ++ [prev, b])).level_item_list.getD
        ((stateAfter (pre ++ [prev])).old_level + 1) []
      = [OutlineItem.node b.name b.page_number []] := by
  have heq : pre ++ [prev, b] = (pre ++ [prev]) ++ [b] := by simp
  rw [heq, stateAfter_append]
  have horl : (stateAfter (pre ++ [prev])).old_raw_level = some prev.level :=
    stateAfter_old_raw pre prev
  obtain ⟨hlen, -⟩ := stateAfter_good (pre ++ [prev])
  set st := stateAfter (pre ++ [prev]) with hst
  have hsteq : st = ⟨st.level_item_list, st.old_raw_level, st.old_level⟩ := rfl
  rw [hsteq, horl]
  simp only [buildStep]
  rw [if_pos h]
  refine ⟨rfl, by simp [appendAt_length], ?_⟩
  have hc := appendAt_concat st.level_item_list [] (OutlineItem.node b.name b.page_number [])
  rw [hlen] at hc
  simp only [hc]
  rw [← hlen, getD_concat_length]
  simp

/-- C2: whenever a token's raw level is strictly less than the previous
token's raw level, its resolved depth is max(0, previous resolved depth −
(previous raw level − this raw level)), and exactly (previous resolved
depth − new resolved depth) frames are deleted from the stack. -/
theorem C2_ascend_rule (pre : List Bookmark) (prev b : Bookmark)
    (h : b.level < prev.level) :
    (stateAfter (pre ++ [prev, b])).old_level =
      (max 0 (((stateAfter (pre ++ [prev])).old_level : Int) -
        ((prev.level : Int) - (b.level : Int)))).toNat ∧
    (stateAfter (pre ++ [prev, b])).old_level ≤ (stateAfter (pre ++ [prev])).old_level ∧
    (stateAfter (pre ++ [prev, b])).level_item_list.length =
      (stateAfter (pre ++ [prev])).level_item_list.length -
        ((stateAfter (pre ++ [prev])).old_level - (stateAfter (pre ++ [prev, b])).old_level) := by
  have heq : pre ++ [prev, b] = (pre ++ [prev]) ++ [b] := by simp
  rw [heq, stateAfter_append]
  have horl : (stateAfter (pre ++ [prev])).old_raw_level = some prev.level :=
    stateAfter_old_raw pre prev
  obtain ⟨hlen, -⟩ := stateAfter_good (pre ++ [prev])
  set st := stateAfter (pre ++ [prev]) with hst
  have hsteq : st = ⟨st.level_item_list, st.old_raw_level, st.old_level⟩ := rfl
  rw [hsteq, horl]
  simp only [buildStep]
  rw [if_neg (by omega), if_pos h]
  set L : Nat := (max 0 ((st.old_level : Int) - ((prev.level : Int) - (b.level : Int)))).toNat
    with hLdef
  have hLle : L ≤ st.old_level := by omega
  refine ⟨rfl, hLle, ?_⟩
  by_cases h3 : L < st.old_level
  · rw [if_pos h3]
    simp only [appendAt_length, delFrames_length]
  · rw [if_neg h3]
    have : L = st.old_level := by omega
    simp [appendAt_length, this]

/-- C4: whenever a token's raw level equals the previous token's raw level,
it keeps the previous resolved depth, no frame is pushed or popped, and the
new node is appended at the end of the same children-sequence frame, making
the two nodes consecutive siblings in encounter order. -/
theorem C4_sibling_rule (pre : List Bookmark) (prev b : Bookmark)
    (h : b.level = prev.level) :
    (stateAfter (pre ++ [prev, b])).old_level = (stateAfter (pre ++ [prev])).old_level ∧
    (stateAfter (pre ++ [prev, b])).level_item_list.length =
      (stateAfter (pre ++ [prev])).level_item_list.length ∧
    (stateAfter (pre ++ [prev, b])).level_item_list.getD
        ((stateAfter (pre ++ [prev])).old_level) []
      = (stateAfter (pre ++ [prev])).level_item_list.getD
          ((stateAfter (pre ++ [prev])).old_level) []
        ++ [OutlineItem.node b.name b.page_number []] := by
  have heq : pre ++ [prev, b] = (pre ++ [prev]) ++ [b] := by simp
  rw [heq, stateAfter_append]
  have horl : (stateAfter (pre ++ [prev])).old_raw_level = some prev.level :=
    stateAfter_old_raw pre prev
  obtain ⟨hlen, -⟩ := stateAfter_good (pre ++ [prev])
  set st := stateAfter (pre ++ [prev]) with hst
  have hsteq : st = ⟨st.level_item_list, st.old_raw_level, st.old_level⟩ := rfl
  rw [hsteq, horl]
  simp only [buildStep]
  rw [if_neg (by omega), if_neg (by omega)]
  refine ⟨rfl, by simp [appendAt_length], ?_⟩
  rcases List.eq_nil_or_concat st.level_item_list with hnil | ⟨front, top, hs⟩
  · rw [hnil] at hlen; simp at hlen
  · rw [List.concat_eq_append] at hs
    have hfl : front.length = st.old_level := by
      rw [hs, List.length_append, List.length_singleton] at hlen; omega
    simp only [hs, ← hfl]
    rw [appendAt_concat, getD_concat_length, getD_concat_length]

lemma pageBookmarks_page_number (i : Nat) (stem : List Char) (b : Bookmark)
    (hb : b ∈ pageBookmarks i stem) : b.page_number = i := by
  unfold pageBookmarks at hb
  split at hb
  · split_ifs at hb
    · obtain ⟨t, -, rfl⟩ := List.mem_map.mp hb
      rfl
    · simp at hb
  · simp at hb

/-- C7: the depth-first preorder of the built outline forest lists the
(title, target page) pairs of the flattened token sequence exactly, in
encounter order (page index ascending, then token order within a page); and
every bookmark's page number is the zero-based index of the page whose
label produced it. -/
theorem C7_order_and_page_targeting (stems : List (List Char)) :
    flattenForest (generate_outlines stems) =
      (collectBookmarks stems).map (fun b => (b.name, b.page_number)) ∧
    ∀ b ∈ collectBookmarks stems,
      b.page_number < stems.length ∧
      b ∈ pageBookmarks b.page_number (stems.getD b.page_number []) := by
  constructor
  · unfold generate_outlines
    by_cases hz : (collectBookmarks stems).length = 0
    · rw [if_pos hz]
      rw [List.length_eq_zero] at hz
      rw [hz]
      simp [flattenForest_nil]
    · rw [if_neg hz]
      obtain ⟨-, hdisj⟩ := stateAfter_good (collectBookmarks stems)
      rcases hdisj with ⟨-, -, -, hproc⟩ | ⟨-, -, -, hflat⟩
      · rw [hproc] at hz; simp at hz
      · exact hflat
  · intro b hb
    unfold collectBookmarks at hb
    rw [List.mem_flatten] at hb
    obtain ⟨l, hl, hbl⟩ := hb
    obtain ⟨⟨i, stem⟩, hmem, rfl⟩ := List.mem_map.mp hl
    have hpage : b.page_number = i := pageBookmarks_page_number i stem b hbl
    have hget : stems[i]? = some stem := List.mk_mem_enum_iff_getElem?.mp hmem
    have hilt : i < stems.length := by
      by_contra hcon
      rw [List.getElem?_eq_none (by omega)] at hget
      cases hget
    have hgetD : stems.getD i [] = stem := by
      rw [List.getD_eq_getElem?_getD, hget]
      rfl
    rw [hpage, hgetD]
    exact ⟨hilt, hbl⟩

/-- C8: a page whose filename stem has no remainder after the page-number
field, or whose remainder yields zero tokens, contributes no bookmark
entries; and when the flattened token sequence over all pages is empty the
builder returns an empty root sequence. -/
theorem C8_empty_is_normal :
    (∀ (pn : Nat) (stem : List Char), (splitMax1 stem).length < 2 → pageBookmarks pn stem = []) ∧
    (∀ (pn : Nat) (stem : List Char) (f label : List Char),
      splitMax1 stem = [f, label] → tokenize label = [] → pageBookmarks pn stem = []) ∧
    (∀ stems : List (List Char), collectBookmarks stems = [] → generate_outlines stems = []) := by
  refine ⟨?_, ?_, ?_⟩
  · intro pn stem hlt
    unfold pageBookmarks
    split
    · rename_i heq
      rw [heq] at hlt
      simp at hlt
    · rfl
  · intro pn stem f label heq htok
    unfold pageBookmarks
    rw [heq]
    simp [htok]
  · intro stems hempty
    unfold generate_outlines
    rw [hempty]
    simp

/-- C9: the tokenizer and the builder are pure functions of their input:
the same label string always yields the same token sequence, and the same
ordered page list always yields the same tree (determinism and idempotence
hold by construction, the embedding being side-effect free). -/
theorem C9_determinism (s : List Char) (stems : List (List Char)) :
    tokenize s = tokenize s ∧
    generate_outlines stems = generate_outlines stems ∧
    flattenForest (generate_outlines stems) = flattenForest (generate_outlines stems) :=
  ⟨rfl, rfl, rfl⟩

/- Tokenizer facts. -/

lemma findIdx?_some_lt {α : Type} (p : α → Bool) (l : List α) (i : Nat)
    (h : l.findIdx? p = some i) : i < l.length :=
  (List.findIdx?_eq_some_iff_findIdx_eq.mp h).1

lemma splitMarker_marker (c : Char) (cs : List Char) (h : isMarker c = true) :
    splitMarker (c :: cs) = (markerList.indexOf c, cs) := by
  have hmem : c ∈ markerList := by simpa [isMarker] using h
  fin_cases hmem <;> rfl

lemma splitMarker_not_marker (c : Char) (cs : List Char) (h : isMarker c = false) :
    splitMarker (c :: cs) = (0, c :: cs) := by
  have hnot : ¬ c ∈ markerList := by simpa [isMarker] using h
  unfold splitMarker
  have hnone : markerList.findIdx? (fun m => (c :: cs).head? == some m) = none := by
    rw [List.findIdx?_eq_none_iff]
    intro m hm
    have hne : c ≠ m := fun heq => hnot (heq ▸ hm)
    simp [hne]
  rw [hnone]

lemma processRun_some (run : List Char) (t : LabelToken) (h : processRun run = some t) :
    t.level = (splitMarker run).1 ∧
    t.text = trimChars ((splitMarker run).2.takeWhile (fun c => c != '※')) := by
  simp only [processRun] at h
  split_ifs at h
  cases h
  exact ⟨rfl, rfl⟩

lemma processRun_level_le (run : List Char) (t : LabelToken) (h : processRun run = some t) :
    t.level ≤ 15 := by
  rw [(processRun_some run t h).1]
  unfold splitMarker
  cases hf : markerList.findIdx? (fun m => run.head? == some m) with
  | none => simp
  | some i =>
    have := findIdx?_some_lt _ _ _ hf
    simp only [markerList, List.length_cons, List.length_nil] at this
    simpa using by omega

lemma mem_of_mem_trimChars {x : Char} {s : List Char} (h : x ∈ trimChars s) : x ∈ s := by
  unfold trimChars at h
  rw [List.mem_reverse] at h
  have h1 := (List.dropWhile_sublist _).subset h
  rw [List.mem_reverse] at h1
  exact (List.dropWhile_sublist _).subset h1

/-- C5: every run extracted by the tokenizer that starts with one of the 16
recognized marker symbols is assigned the marker's 0-based position in the
fixed ordered alphabet as its level, the marker being stripped; a run
starting with no marker gets level 0 and keeps its text; every emitted
token's level lies in [0, 15]. -/
theorem C5_marker_level_mapping :
    (∀ (s : List Char), ∀ run ∈ scanRuns s, ∀ (c : Char) (cs : List Char), run = c :: cs →
      (isMarker c = true →
        splitMarker run = (markerList.indexOf c, cs) ∧ markerList.indexOf c ≤ 15) ∧
      (isMarker c = false → splitMarker run = (0, run))) ∧
    (∀ (s : List Char), ∀ t ∈ tokenize s, t.level ≤ 15) := by
  constructor
  · intro s run _ c cs hrun
    subst hrun
    constructor
    · intro hm
      refine ⟨splitMarker_marker c cs hm, ?_⟩
      have hmem : c ∈ markerList := by simpa [isMarker] using hm
      have hlt := List.indexOf_lt_length.mpr hmem
      have h16 : markerList.length = 16 := rfl
      omega
    · intro hm
      exact splitMarker_not_marker c cs hm
  · intro s t ht
    obtain ⟨run, -, hproc⟩ := List.mem_filterMap.mp ht
    exact processRun_level_le run t hproc

/-- C6: for every run, all text at and after the first note delimiter ※ is
discarded and the rest is trimmed of surrounding whitespace; a run whose
remaining text is empty emits no token, and an emitted token's text is
nonempty and free of ※; tokenizing "1 title ※note" yields the single token
(level 0, text "1 title"). -/
theorem C6_note_truncation :
    (∀ (run : List Char) (t : LabelToken), processRun run = some t →
      t.text = trimChars ((splitMarker run).2.takeWhile (fun c => c != '※')) ∧
      t.text ≠ [] ∧ '※' ∉ t.text) ∧
    (∀ run : List Char,
      trimChars ((splitMarker run).2.takeWhile (fun c => c != '※')) = [] →
      processRun run = none) ∧
    tokenize ("1 title ※note".toList) = [⟨0, "1 title".toList⟩] := by
  refine ⟨?_, ?_, by decide⟩
  · intro run t h
    obtain ⟨-, htext⟩ := processRun_some run t h
    refine ⟨htext, ?_, ?_⟩
    · intro hnil
      rw [hnil] at htext
      simp only [processRun, ← htext] at h
      rw [if_pos (by rfl)] at h
      cases h
    · intro hmem
      rw [htext] at hmem
      have := List.mem_takeWhile_imp (mem_of_mem_trimChars hmem)
      simp at this
  · intro run hempty
    simp only [processRun]
    rw [if_pos (by rw [hempty]; rfl)]

/-- C10: a marker symbol immediately followed by another marker symbol or by
the end of the string starts no run: the non-overlapping scan skips it and
it contributes neither a token nor a level; tokenizing "❶❷text" yields
exactly one token, with level 2 and text "text". -/
theorem C10_marker_skipped :
    (∀ (c : Char) (cs : List Char), isMarker c = true →
      (cs = [] ∨ ∃ d ds, cs = d :: ds ∧ isMarker d = true) →
      scanRuns (c :: cs) = scanRuns cs ∧ tokenize (c :: cs) = tokenize cs) ∧
    tokenize ("❶❷text".toList) = [⟨2, "text".toList⟩] := by
  refine ⟨?_, by decide⟩
  intro c cs hc hcs
  have hscan : scanRuns (c :: cs) = scanRuns cs := by
    rcases hcs with rfl | ⟨d, ds, rfl, hd⟩
    · simp [scanRuns, scanRunsAux, hc]
    · simp [scanRuns, scanRunsAux, hc, hd]
  exact ⟨hscan, by unfold tokenize; rw [hscan]⟩

/-- Witness for C1 at the spec's raw-level jump from 0 directly to 3: the
second token nests exactly one step below the first. -/
theorem C1_descend_rule_witness :
    (Bookmark.mk 0 ['a'] 0).level < (Bookmark.mk 3 ['b'] 1).level ∧
    ((stateAfter ([] ++ [Bookmark.mk 0 ['a'] 0, Bookmark.mk 3 ['b'] 1])).old_level =
        (stateAfter ([] ++ [Bookmark.mk 0 ['a'] 0])).old_level + 1 ∧
      (stateAfter ([] ++ [Bookmark.mk 0 ['a'] 0, Bookmark.mk 3 ['b'] 1])).level_item_list.length =
        (stateAfter ([] ++ [Bookmark.mk 0 ['a'] 0])).level_item_list.length + 1 ∧
      (stateAfter ([] ++ [Bookmark.mk 0 ['a'] 0, Bookmark.mk 3 ['b'] 1])).level_item_list.getD
          ((stateAfter ([] ++ [Bookmark.mk 0 ['a'] 0])).old_level + 1) []
        = [OutlineItem.node (Bookmark.mk 3 ['b'] 1).name (Bookmark.mk 3 ['b'] 1).page_number []]) :=
  ⟨by decide, C1_descend_rule [] (Bookmark.mk 0 ['a'] 0) (Bookmark.mk 3 ['b'] 1) (by decide)⟩

/-- Witness for C2 at the spec's scenario: after reaching resolved depth 2
(raw levels 0, 1, 2), a raw-level-0 token returns to depth 0. -/
theorem C2_ascend_rule_witness :
    (Bookmark.mk 0 ['d'] 3).level < (Bookmark.mk 2 ['c'] 2).level ∧
    ((stateAfter ([Bookmark.mk 0 ['a'] 0, Bookmark.mk 1 ['b'] 1] ++
        [Bookmark.mk 2 ['c'] 2, Bookmark.mk 0 ['d'] 3])).old_level =
      (max 0 (((stateAfter ([Bookmark.mk 0 ['a'] 0, Bookmark.mk 1 ['b'] 1] ++
          [Bookmark.mk 2 ['c'] 2])).old_level : Int) -
        (((Bookmark.mk 2 ['c'] 2).level : Int) - ((Bookmark.mk 0 ['d'] 3).level : Int)))).toNat ∧
    (stateAfter ([Bookmark.mk 0 ['a'] 0, Bookmark.mk 1 ['b'] 1] ++
        [Bookmark.mk 2 ['c'] 2, Bookmark.mk 0 ['d'] 3])).old_level ≤
      (stateAfter ([Bookmark.mk 0 ['a'] 0, Bookmark.mk 1 ['b'] 1] ++
        [Bookmark.mk 2 ['c'] 2])).old_level ∧
    (stateAfter ([Bookmark.mk 0 ['a'] 0, Bookmark.mk 1 ['b'] 1] ++
        [Bookmark.mk 2 ['c'] 2, Bookmark.mk 0 ['d'] 3])).level_item_list.length =
      (stateAfter ([Bookmark.mk 0 ['a'] 0, Bookmark.mk 1 ['b'] 1] ++
          [Bookmark.mk 2 ['c'] 2])).level_item_list.length -
        ((stateAfter ([Bookmark.mk 0 ['a'] 0, Bookmark.mk 1 ['b'] 1] ++
            [Bookmark.mk 2 ['c'] 2])).old_level -
          (stateAfter ([Bookmark.mk 0 ['a'] 0, Bookmark.mk 1 ['b'] 1] ++
            [Bookmark.mk 2 ['c'] 2, Bookmark.mk 0 ['d'] 3])).old_level)) :=
  ⟨by decide, C2_ascend_rule [Bookmark.mk 0 ['a'] 0, Bookmark.mk 1 ['b'] 1]
    (Bookmark.mk 2 ['c'] 2) (Bookmark.mk 0 ['d'] 3) (by decide)⟩

/-- Witness for C4: two consecutive raw-level-0 tokens are siblings in the
root frame, in encounter order. -/
theorem C4_sibling_rule_witness :
    (Bookmark.mk 0 ['b'] 1).level = (Bookmark.mk 0 ['a'] 0).level ∧
    ((stateAfter ([] ++ [Bookmark.mk 0 ['a'] 0, Bookmark.mk 0 ['b'] 1])).old_level =
        (stateAfter ([] ++ [Bookmark.mk 0 ['a'] 0])).old_level ∧
      (stateAfter ([] ++ [Bookmark.mk 0 ['a'] 0, Bookmark.mk 0 ['b'] 1])).level_item_list.length =
        (stateAfter ([] ++ [Bookmark.mk 0 ['a'] 0])).level_item_list.length ∧
      (stateAfter ([] ++ [Bookmark.mk 0 ['a'] 0, Bookmark.mk 0 ['b'] 1])).level_item_list.getD
          ((stateAfter ([] ++ [Bookmark.mk 0 ['a'] 0])).old_level) []
        = (stateAfter ([] ++ [Bookmark.mk 0 ['a'] 0])).level_item_list.getD
            ((stateAfter ([] ++ [Bookmark.mk 0 ['a'] 0])).old_level) []
          ++ [OutlineItem.node (Bookmark.mk 0 ['b'] 1).name
                (Bookmark.mk 0 ['b'] 1).page_number []]) :=
  ⟨by decide, C4_sibling_rule [] (Bookmark.mk 0 ['a'] 0) (Bookmark.mk 0 ['b'] 1) (by decide)⟩

/-- Witness for C5 on the run extracted from the label "❶x": the marker ❶
maps to level 1 and is stripped. -/
theorem C5_marker_level_mapping_witness :
    (['❶', 'x'] ∈ scanRuns ("❶x".toList)) ∧ isMarker '❶' = true ∧
    (splitMarker ['❶', 'x'] = (markerList.indexOf '❶', ['x']) ∧ markerList.indexOf '❶' ≤ 15) :=
  ⟨by decide, by decide,
    (C5_marker_level_mapping.1 ("❶x".toList) ['❶', 'x'] (by decide) '❶' ['x'] rfl).1 (by decide)⟩

/-- Witness for C6 on the spec's example run "1 title ※note": the note is
discarded, the text is trimmed, nonempty and free of ※. -/
theorem C6_note_truncation_witness :
    processRun ("1 title ※note".toList) = some ⟨0, "1 title".toList⟩ ∧
    ((LabelToken.mk 0 ("1 title".toList)).text =
        trimChars ((splitMarker ("1 title ※note".toList)).2.takeWhile (fun c => c != '※')) ∧
      (LabelToken.mk 0 ("1 title".toList)).text ≠ [] ∧
      '※' ∉ (LabelToken.mk 0 ("1 title".toList)).text) :=
  ⟨by decide, C6_note_truncation.1 ("1 title ※note".toList) ⟨0, "1 title".toList⟩ (by decide)⟩

/-- Witness for C7: in a two-page document the token of the second page
targets page index 1 and stems from that page's label. -/
theorem C7_order_and_page_targeting_witness :
    (Bookmark.mk 1 ['b'] 1 ∈ collectBookmarks ["p1 a".toList, "p2 ❶b".toList]) ∧
    ((Bookmark.mk 1 ['b'] 1).page_number <
        (["p1 a".toList, "p2 ❶b".toList] : List (List Char)).length ∧
      Bookmark.mk 1 ['b'] 1 ∈ pageBookmarks (Bookmark.mk 1 ['b'] 1).page_number
        ((["p1 a".toList, "p2 ❶b".toList] : List (List Char)).getD
          (Bookmark.mk 1 ['b'] 1).page_number [])) :=
  ⟨by decide,
    (C7_order_and_page_targeting ["p1 a".toList, "p2 ❶b".toList]).2
      (Bookmark.mk 1 ['b'] 1) (by decide)⟩

/-- Witness for C8: a page stem with no remainder yields no bookmarks, and
a document whose flattened token sequence is empty gets an empty outline. -/
theorem C8_empty_is_normal_witness :
    collectBookmarks ["p001".toList] = [] ∧ generate_outlines ["p001".toList] = [] :=
  ⟨by decide, C8_empty_is_normal.2.2 ["p001".toList] (by decide)⟩

/-- Witness for C10 on the spec's example "❶❷text": the leading ❶ starts no
run and is discarded. -/
theorem C10_marker_skipped_witness :
    isMarker '❶' = true ∧
    (("❷text".toList : List Char) = [] ∨
      ∃ d ds, "❷text".toList = d :: ds ∧ isMarker d = true) ∧
    (scanRuns ('❶' :: "❷text".toList) = scanRuns ("❷text".toList) ∧
      tokenize ('❶' :: "❷text".toList) = tokenize ("❷text".toList)) :=
  ⟨by decide, Or.inr ⟨'❷', "text".toList, by decide, by decide⟩,
    C10_marker_skipped.1 '❶' ("❷text".toList) (by decide)
      (Or.inr ⟨'❷', "text".toList, by decide, by decide⟩)⟩
